import Mathlib

/-!
Verification of the pgx repository's control-file parser, aggregate-state
textual round trip, and variadic type-shape classifier, shallowly embedded
from the Rust sources.
-/

/-! ## Control file parsing (src/pgx/src/datum/inventory/control_file.rs) -/

/-- The single-quote character `'` (used by `trim_start_matches('\'')` /
`trim_end_matches('\'')` in `ControlFile::from_str`). -/
def quoteCh : Char := Char.ofNat 39

/-- Splitting a character list at every occurrence of `sep`, as Rust's
`str::split(sep)` / `slice::split` do: `n` separators yield `n + 1` chunks,
and the empty input yields one empty chunk. -/
def splitOnChar (sep : Char) : List Char → List (List Char)
  | [] => [[]]
  | c :: rest =>
    match splitOnChar sep rest with
    | [] => [[]]
    | hd :: tl => if c = sep then [] :: hd :: tl else (c :: hd) :: tl

/-- Rust `str::trim`: remove leading and trailing whitespace. -/
def trimChars (cs : List Char) : List Char :=
  ((cs.dropWhile Char.isWhitespace).reverse.dropWhile Char.isWhitespace).reverse

/-- Rust `str::trim_start_matches('\'')`: remove every leading quote. -/
def trimStartQuotes (cs : List Char) : List Char :=
  cs.dropWhile (fun c => c = quoteCh)

/-- Rust `str::trim_end_matches('\'')`: remove every trailing quote. -/
def trimEndQuotes (cs : List Char) : List Char :=
  (cs.reverse.dropWhile (fun c => c = quoteCh)).reverse

/-- Drop a single trailing carriage return, as `str::lines` does per line. -/
def stripCR (l : List Char) : List Char :=
  if l.getLast? = some (Char.ofNat 13) then l.dropLast else l

/-- Rust `str::lines`: split on newline, with no empty trailing line when the
input ends in a newline, and trailing `\r` stripped from each line. -/
def linesOf (cs : List Char) : List (List Char) :=
  let r := splitOnChar (Char.ofNat 10) cs
  (if r.getLast? = some [] then r.dropLast else r).map stripCR

/-- The processing `ControlFile::from_str` applies to the value part of a
line: trim whitespace, then strip all leading and all trailing quotes. -/
def processValue (v : List Char) : List Char :=
  trimEndQuotes (trimStartQuotes (trimChars v))

/-- One line of a control file: split on `=`; keep the line only when that
split yields exactly two parts; trim the key, process the value. -/
def lineKV (line : List Char) : Option (List Char × List Char) :=
  match splitOnChar '=' line with
  | [k, v] => some (trimChars k, processValue v)
  | _ => none

/-- The key/value pairs collected from the input, in line order. -/
def collectKVs (cs : List Char) : List (List Char × List Char) :=
  (linesOf cs).filterMap lineKV

/-- `HashMap` lookup over the collected pairs: a later insertion of the same
key overwrites an earlier one, so the last matching pair wins. -/
def getKey (m : List (List Char × List Char)) (k : List Char) : Option (List Char) :=
  (m.reverse.find? (fun p => p.1 = k)).map (fun p => p.2)

/-- `ControlFileError` (the `SpanTrace` context is diagnostic only and
omitted). -/
inductive ControlFileError where
  | MissingField (field : String)
deriving DecidableEq, Repr

/-- The parsed contents of a `.control` file. String fields are character
lists. -/
structure ControlFile where
  comment : List Char
  default_version : List Char
  module_pathname : List Char
  relocatable : Bool
  superuser : Bool
  schema : Option (List Char)
deriving DecidableEq, Repr

/-- `ControlFile::from_str`: collect key/value pairs, then build the record,
failing with `MissingField` at the first absent key, in the field order of
the Rust struct literal (`comment`, `default_version`, `module_pathname`,
`relocatable`, `superuser`; `schema` is optional). The boolean fields
compare the processed value against the literal string `true`. -/
def ControlFile.from_str (input : List Char) : Except ControlFileError ControlFile :=
  let temp := collectKVs input
  match getKey temp "comment".toList with
  | none => .error (.MissingField "comment")
  | some comment =>
    match getKey temp "default_version".toList with
    | none => .error (.MissingField "default_version")
    | some default_version =>
      match getKey temp "module_pathname".toList with
      | none => .error (.MissingField "module_pathname")
      | some module_pathname =>
        match getKey temp "relocatable".toList with
        | none => .error (.MissingField "relocatable")
        | some relocatable =>
          match getKey temp "superuser".toList with
          | none => .error (.MissingField "superuser")
          | some superuser =>
            .ok { comment := comment
                  default_version := default_version
                  module_pathname := module_pathname
                  relocatable := decide (relocatable = "true".toList)
                  superuser := decide (superuser = "true".toList)
                  schema := getKey temp "schema".toList }

/-- The manifest text of the spec's end-to-end scenario:
`comment = 'demo' / default_version = '1.0' / module_pathname = '$libdir/demo'
/ relocatable = true` (single-quoted values, newline separated). -/
def demoManifest : List Char :=
  "comment = ".toList ++ [quoteCh] ++ "demo".toList ++ [quoteCh] ++
  "\ndefault_version = ".toList ++ [quoteCh] ++ "1.0".toList ++ [quoteCh] ++
  "\nmodule_pathname = ".toList ++ [quoteCh] ++ "$libdir/demo".toList ++ [quoteCh] ++
  "\nrelocatable = true".toList

/-- A manifest line whose value itself contains a further `=` character. -/
def extraEqLine : List Char := "schema = x=y".toList

/-- A manifest line whose value is wrapped in two layers of quotes. -/
def doubleQuotedLine : List Char :=
  "schema = ".toList ++ [quoteCh, quoteCh, 'x', quoteCh, quoteCh]

/-- Manifest texts missing one required key each. -/
def manifestNoComment : List Char :=
  "default_version = 1.0\nmodule_pathname = x\nrelocatable = true\nsuperuser = false".toList

def manifestNoDefaultVersion : List Char :=
  "comment = a\nmodule_pathname = x\nrelocatable = true\nsuperuser = false".toList

def manifestNoModulePathname : List Char :=
  "comment = a\ndefault_version = 1.0\nrelocatable = true\nsuperuser = false".toList

/-! ### Lemmas about `splitOnChar` -/

theorem splitOnChar_ne_nil (sep : Char) (cs : List Char) : splitOnChar sep cs ≠ [] := by
  cases cs with
  | nil => simp [splitOnChar]
  | cons c rest =>
    simp only [splitOnChar]
    cases splitOnChar sep rest with
    | nil => simp
    | cons hd tl =>
      by_cases hc : c = sep <;> simp [hc]

theorem splitOnChar_length (sep : Char) (cs : List Char) :
    (splitOnChar sep cs).length = cs.count sep + 1 := by
  induction cs with
  | nil => simp [splitOnChar]
  | cons c rest ih =>
    simp only [splitOnChar]
    cases h : splitOnChar sep rest with
    | nil => exact absurd h (splitOnChar_ne_nil sep rest)
    | cons hd tl =>
      rw [h] at ih
      simp only [List.length_cons] at ih
      dsimp only
      by_cases hc : c = sep
      · subst hc
        rw [if_pos rfl]
        simp only [List.length_cons, List.count_cons, beq_self_eq_true, if_true]
        omega
      · have hc2 : ¬ sep = c := fun he => hc he.symm
        rw [if_neg hc]
        simp only [List.length_cons, List.count_cons, beq_iff_eq, if_neg hc, if_neg hc2]
        omega

theorem splitOnChar_of_not_mem {sep : Char} {cs : List Char} (h : sep ∉ cs) :
    splitOnChar sep cs = [cs] := by
  induction cs with
  | nil => rfl
  | cons c rest ih =>
    have hc : ¬ c = sep := by rintro rfl; exact h (List.mem_cons_self _ _)
    have hr : sep ∉ rest := fun hm => h (List.mem_cons_of_mem _ hm)
    simp only [splitOnChar, ih hr]
    simp [hc]

theorem splitOnChar_append_sep {sep : Char} {a : List Char} (t : List Char) (h : sep ∉ a) :
    splitOnChar sep (a ++ sep :: t) = a :: splitOnChar sep t := by
  induction a with
  | nil =>
    simp only [List.nil_append, splitOnChar]
    cases hs : splitOnChar sep t with
    | nil => exact absurd hs (splitOnChar_ne_nil sep t)
    | cons hd tl => simp
  | cons c rest ih =>
    have hc : ¬ c = sep := by rintro rfl; exact h (List.mem_cons_self _ _)
    have hr : sep ∉ rest := fun hm => h (List.mem_cons_of_mem _ hm)
    show splitOnChar sep (c :: (rest ++ sep :: t)) = (c :: rest) :: splitOnChar sep t
    simp only [splitOnChar]
    rw [ih hr]
    simp [hc]

/-! ### Lemmas about value processing -/

theorem head?_dropWhile_ne (p : Char → Bool) (l : List Char) (c : Char)
    (h : (l.dropWhile p).head? = some c) : p c = false := by
  induction l with
  | nil => simp [List.dropWhile] at h
  | cons a t ih =>
    rw [List.dropWhile_cons] at h
    by_cases ha : p a = true
    · exact ih (by simpa [ha] using h)
    · have : a = c := by simpa [ha] using h
      subst this
      simpa using ha

theorem trimEndQuotes_head? (w : List Char) (c : Char)
    (h : (trimEndQuotes w).head? = some c) : w.head? = some c := by
  obtain ⟨t, ht⟩ := List.dropWhile_suffix (l := w.reverse) (p := fun c => c = quoteCh)
  have hw : w = trimEndQuotes w ++ t.reverse := by
    have := congrArg List.reverse ht
    simpa [trimEndQuotes, List.reverse_append] using this.symm
  cases he : trimEndQuotes w with
  | nil => rw [he] at h; simp at h
  | cons d ds =>
    rw [he] at h hw
    simp at h
    subst h
    rw [hw]
    simp

/-! ### Claims about the control-file parser -/

/-- C1 (counterexample): contrary to the claim, `superuser` is not an
optional key of `ControlFile::from_str`: the spec's demo manifest, which
omits it, fails to parse with `MissingField superuser` instead of
succeeding with `superuser = false`. -/
theorem demoManifest_missing_superuser_fails :
    ControlFile.from_str demoManifest = .error (.MissingField "superuser") := rfl

/-- C1 (amended): `relocatable` and `superuser` are required keys; only
`schema` is optional. The demo manifest extended with `superuser = false`
parses to the expected record, with the absent `schema` defaulting to
`none`. -/
theorem demoManifest_with_superuser_parses :
    ControlFile.from_str (demoManifest ++ "\nsuperuser = false".toList) =
      .ok { comment := "demo".toList
            default_version := "1.0".toList
            module_pathname := "$libdir/demo".toList
            relocatable := true
            superuser := false
            schema := none } := rfl

/-- C3 (counterexample): a line whose value contains a further `=` splits
into three parts, so it is discarded rather than retained with everything
after the first `=` as the value. -/
theorem extraEqLine_discarded : lineKV extraEqLine = none := rfl

/-- C3 (amended): a manifest line is kept exactly when it contains exactly
one `=` character (the split yields exactly two parts); lines with no `=`
or with two or more `=` are discarded. When a line has exactly one `=`,
the key is the trimmed part before it and the value the processed part
after it. -/
theorem lineKV_kept_iff_one_eq :
    (∀ line : List Char, lineKV line = none ↔ line.count '=' ≠ 1) ∧
    (∀ k v : List Char, '=' ∉ k → '=' ∉ v →
      lineKV (k ++ '=' :: v) = some (trimChars k, processValue v)) := by
  constructor
  · intro line
    unfold lineKV
    have hlen := splitOnChar_length '=' line
    cases hsp : splitOnChar '=' line with
    | nil => exact absurd hsp (splitOnChar_ne_nil _ _)
    | cons a l1 =>
      rw [hsp] at hlen
      cases l1 with
      | nil =>
        simp only [List.length_cons, List.length_nil] at hlen
        simp only []
        constructor
        · intro _; omega
        · intro _; trivial
      | cons b l2 =>
        cases l2 with
        | nil =>
          simp only [List.length_cons, List.length_nil] at hlen
          simp only []
          constructor
          · intro hcontra; exact absurd hcontra (by simp)
          · intro hne; exact absurd (by omega : line.count '=' = 1) hne
        | cons d l3 =>
          simp only [List.length_cons] at hlen
          simp only []
          constructor
          · intro _; omega
          · intro _; trivial
  · intro k v hk hv
    unfold lineKV
    rw [splitOnChar_append_sep v hk, splitOnChar_of_not_mem hv]

theorem lineKV_kept_iff_one_eq_witness :
    lineKV ("a = b=c".toList) = none ∧
    lineKV ("a ".toList ++ '=' :: " b".toList) =
      some (trimChars "a ".toList, processValue " b".toList) :=
  ⟨(lineKV_kept_iff_one_eq.1 "a = b=c".toList).mpr (by decide),
   lineKV_kept_iff_one_eq.2 "a ".toList " b".toList (by decide) (by decide)⟩

/-- C4 (counterexample): value processing strips every surrounding quote
character, not a single layer: the value `''x''` parses to `x`, not to
`'x'`. -/
theorem doubleQuotedLine_fully_stripped :
    lineKV doubleQuotedLine = some ("schema".toList, ['x']) ∧
    lineKV doubleQuotedLine ≠ some ("schema".toList, [quoteCh, 'x', quoteCh]) :=
  ⟨rfl, by decide⟩

/-- C4 (amended): all surrounding quote characters (beyond surrounding
whitespace) are removed from the value, so the processed value never begins
or ends with a quote character. -/
theorem processValue_no_quote_at_ends :
    ∀ v : List Char,
      (∀ c : Char, (processValue v).head? = some c → c ≠ quoteCh) ∧
      (∀ c : Char, (processValue v).getLast? = some c → c ≠ quoteCh) := by
  intro v
  constructor
  · intro c hc
    have hw : (trimStartQuotes (trimChars v)).head? = some c :=
      trimEndQuotes_head? _ _ hc
    simp only [trimStartQuotes] at hw
    have := head?_dropWhile_ne _ _ _ hw
    simpa using this
  · intro c hc
    have h1 : ((trimStartQuotes (trimChars v)).reverse.dropWhile
        (fun c => c = quoteCh)).reverse.getLast? = some c := hc
    rw [List.getLast?_reverse] at h1
    have := head?_dropWhile_ne _ _ _ h1
    simpa using this

theorem processValue_no_quote_at_ends_witness :
    (processValue [quoteCh, quoteCh, 'x', quoteCh, quoteCh]).head? = some 'x' ∧
    ('x' : Char) ≠ quoteCh :=
  ⟨rfl, (processValue_no_quote_at_ends [quoteCh, quoteCh, 'x', quoteCh, quoteCh]).1 'x' rfl⟩

/-- A manifest whose `relocatable` value is the quoted literal `'true'` and
whose `superuser` value is `1`. -/
def boolManifest : List Char :=
  "comment = a\ndefault_version = 1\nmodule_pathname = x\nrelocatable = ".toList ++
  [quoteCh] ++ "true".toList ++ [quoteCh] ++ "\nsuperuser = 1".toList

/-- C6: whenever parsing succeeds, the boolean fields `relocatable` and
`superuser` are `true` exactly when the trimmed, quote-stripped value text
collected for that key is the literal string `true`; any other value text
yields `false`. -/
theorem from_str_bool_exact :
    ∀ (input : List Char) (r : ControlFile), ControlFile.from_str input = .ok r →
      ((r.relocatable = true ↔
          getKey (collectKVs input) "relocatable".toList = some "true".toList) ∧
       (r.superuser = true ↔
          getKey (collectKVs input) "superuser".toList = some "true".toList)) := by
  intro input r h
  simp only [ControlFile.from_str] at h
  cases hc : getKey (collectKVs input) "comment".toList with
  | none => rw [hc] at h; exact absurd h (by simp)
  | some cv =>
    rw [hc] at h
    cases hd : getKey (collectKVs input) "default_version".toList with
    | none => rw [hd] at h; exact absurd h (by simp)
    | some dv =>
      rw [hd] at h
      cases hm : getKey (collectKVs input) "module_pathname".toList with
      | none => rw [hm] at h; exact absurd h (by simp)
      | some mv =>
        rw [hm] at h
        cases hrel : getKey (collectKVs input) "relocatable".toList with
        | none => rw [hrel] at h; exact absurd h (by simp)
        | some rv =>
          rw [hrel] at h
          cases hsu : getKey (collectKVs input) "superuser".toList with
          | none => rw [hsu] at h; exact absurd h (by simp)
          | some sv =>
            rw [hsu] at h
            rw [Except.ok.injEq] at h
            subst h
            constructor
            · simp [decide_eq_true_iff]
            · simp [decide_eq_true_iff]

theorem from_str_bool_exact_witness :
    ControlFile.from_str boolManifest =
      .ok { comment := "a".toList
            default_version := "1".toList
            module_pathname := "x".toList
            relocatable := true
            superuser := false
            schema := none } ∧
    (({ comment := "a".toList, default_version := "1".toList,
        module_pathname := "x".toList, relocatable := true,
        superuser := false, schema := none } : ControlFile).relocatable = true ↔
      getKey (collectKVs boolManifest) "relocatable".toList = some "true".toList) ∧
    (({ comment := "a".toList, default_version := "1".toList,
        module_pathname := "x".toList, relocatable := true,
        superuser := false, schema := none } : ControlFile).superuser = true ↔
      getKey (collectKVs boolManifest) "superuser".toList = some "true".toList) :=
  ⟨rfl, (from_str_bool_exact boolManifest _ rfl).1, (from_str_bool_exact boolManifest _ rfl).2⟩

/-- C7: a manifest lacking `comment` fails with `MissingField comment`; one
providing `comment` but lacking `default_version` fails with
`MissingField default_version`; one providing both but lacking
`module_pathname` fails with `MissingField module_pathname` — in each case
the error names exactly the absent required field. -/
theorem from_str_missing_required_field :
    ∀ input : List Char,
      (getKey (collectKVs input) "comment".toList = none →
        ControlFile.from_str input = .error (.MissingField "comment")) ∧
      ((getKey (collectKVs input) "comment".toList).isSome = true →
        getKey (collectKVs input) "default_version".toList = none →
        ControlFile.from_str input = .error (.MissingField "default_version")) ∧
      ((getKey (collectKVs input) "comment".toList).isSome = true →
        (getKey (collectKVs input) "default_version".toList).isSome = true →
        getKey (collectKVs input) "module_pathname".toList = none →
        ControlFile.from_str input = .error (.MissingField "module_pathname")) := by
  intro input
  refine ⟨fun h1 => ?_, fun h1 h2 => ?_, fun h1 h2 h3 => ?_⟩
  · simp only [ControlFile.from_str]
    rw [h1]
  · obtain ⟨cv, hcv⟩ := Option.isSome_iff_exists.mp h1
    simp only [ControlFile.from_str]
    rw [hcv, h2]
  · obtain ⟨cv, hcv⟩ := Option.isSome_iff_exists.mp h1
    obtain ⟨dv, hdv⟩ := Option.isSome_iff_exists.mp h2
    simp only [ControlFile.from_str]
    rw [hcv, hdv, h3]

theorem from_str_missing_required_field_witness :
    ControlFile.from_str manifestNoComment = .error (.MissingField "comment") ∧
    ControlFile.from_str manifestNoDefaultVersion = .error (.MissingField "default_version") ∧
    ControlFile.from_str manifestNoModulePathname = .error (.MissingField "module_pathname") :=
  ⟨(from_str_missing_required_field manifestNoComment).1 rfl,
   (from_str_missing_required_field manifestNoDefaultVersion).2.1 rfl rfl,
   (from_str_missing_required_field manifestNoModulePathname).2.2 rfl rfl rfl⟩

/-! ## Variadic shape classification
(src/pgx-utils/src/sql_entity_graph/pg_aggregate/maybe_variadic_type.rs) -/

/-- A `syn::Type` as far as the classifier inspects it: a macro-invocation
type carries its path segments (as identifier strings) and the result of
parsing its token stream as a type (`none` when the tokens do not parse);
a tuple type carries its element types; anything else is represented by
its text. -/
inductive RustType where
  | mCall (path : List String) (tokens : Option RustType)
  | tuple (elems : List RustType)
  | path (name : String)

/-- Whether a type expression is a macro invocation. -/
def RustType.isMCall : RustType → Bool
  | .mCall _ _ => true
  | _ => false

/-- Whether a type expression is a tuple. -/
def RustType.isTuple : RustType → Bool
  | .tuple _ => true
  | _ => false

/-- One classified type: the original type together with the inner type of
a variadic, if one was detected. -/
structure MaybeVariadicType where
  ty : RustType
  variadic_ty : Option RustType

/-- `MaybeVariadicType::new`: on a macro-invocation type, scan the path
segments, setting `found_pgx` when the segment at index 1 is `pgx` and
`found_variadic` when any segment is `variadic`; when the path is a single
segment and `found_variadic` holds, or both flags hold, parse the macro
tokens as the inner variadic type (failing when they do not parse).
Every other type classifies with no variadic inner type. -/
def MaybeVariadicType.new (ty : RustType) : Except Unit MaybeVariadicType :=
  match ty with
  | .mCall segs tokens =>
    let found_pgx := segs.enum.any (fun p => p.1 = 1 && p.2 = "pgx")
    let found_variadic := segs.any (fun s => s = "variadic")
    if (segs.length = 1 && found_variadic) || (found_pgx && found_variadic) then
      match tokens with
      | some inner => .ok { ty := ty, variadic_ty := some inner }
      | none => .error ()
    else .ok { ty := ty, variadic_ty := none }
  | _ => .ok { ty := ty, variadic_ty := none }

/-- The element-wise classification loop of `MaybeVariadicTypeList::new`:
classify each element in order, propagating the first failure. -/
def classifyElems : List RustType → Except Unit (List MaybeVariadicType)
  | [] => .ok []
  | e :: rest =>
    match MaybeVariadicType.new e with
    | .error err => .error err
    | .ok m =>
      match classifyElems rest with
      | .error err => .error err
      | .ok ms => .ok (m :: ms)

/-- The classified shapes of a (possibly tuple) type expression. -/
structure MaybeVariadicTypeList where
  found : List MaybeVariadicType
  original : RustType

/-- `MaybeVariadicTypeList::new`: a tuple type is classified element by
element in order; any other type yields a single classification. -/
def MaybeVariadicTypeList.new (t : RustType) : Except Unit MaybeVariadicTypeList :=
  match t with
  | .tuple elems =>
    match classifyElems elems with
    | .error err => .error err
    | .ok coll => .ok { found := coll, original := t }
  | ty =>
    match MaybeVariadicType.new ty with
    | .error err => .error err
    | .ok m => .ok { found := [m], original := ty }

/-- An examined tuple type of two elements: a plain `i32` and a
`variadic!(text)` invocation. -/
def tupleExample : RustType :=
  .tuple [.path "i32", .mCall ["variadic"] (some (.path "text"))]

/-- The classification `MaybeVariadicTypeList::new` produces for
`tupleExample`. -/
def tupleExampleRes : MaybeVariadicTypeList where
  found := [{ ty := .path "i32", variadic_ty := none },
            { ty := .mCall ["variadic"] (some (.path "text")),
              variadic_ty := some (.path "text") }]
  original := tupleExample

/-- The classification produced for the bare type `i32`. -/
def singleExampleRes : MaybeVariadicTypeList where
  found := [{ ty := .path "i32", variadic_ty := none }]
  original := .path "i32"

/-- C2 (code-bug evidence): the two-segment call path `pgx::variadic` is
NOT detected as variadic, contrary to the claim: the classifier looks for
the segment `pgx` at index 1, but in `pgx::variadic` it sits at index 0,
so `pgx::variadic!(i32)` classifies with no variadic inner type, while the
single-segment `variadic!(i32)` is detected. -/
theorem pgx_variadic_classifies_scalar :
    MaybeVariadicType.new (.mCall ["pgx", "variadic"] (some (.path "i32"))) =
      .ok { ty := .mCall ["pgx", "variadic"] (some (.path "i32")),
            variadic_ty := none } ∧
    MaybeVariadicType.new (.mCall ["variadic"] (some (.path "i32"))) =
      .ok { ty := .mCall ["variadic"] (some (.path "i32")),
            variadic_ty := some (.path "i32") } :=
  ⟨rfl, rfl⟩

theorem classifyElems_spec :
    ∀ (elems : List RustType) (ms : List MaybeVariadicType),
      classifyElems elems = .ok ms →
      ms.length = elems.length ∧
      ∀ i e, elems.get? i = some e →
        ∃ m, MaybeVariadicType.new e = .ok m ∧ ms.get? i = some m := by
  intro elems
  induction elems with
  | nil =>
    intro ms h
    simp only [classifyElems, Except.ok.injEq] at h
    subst h
    exact ⟨rfl, fun i e he => by simp at he⟩
  | cons e rest ih =>
    intro ms h
    simp only [classifyElems] at h
    cases hm : MaybeVariadicType.new e with
    | error err => rw [hm] at h; simp at h
    | ok m =>
      rw [hm] at h
      cases hr : classifyElems rest with
      | error err => rw [hr] at h; simp at h
      | ok ms' =>
        rw [hr] at h
        rw [Except.ok.injEq] at h
        subst h
        obtain ⟨hlen, hpt⟩ := ih ms' hr
        refine ⟨by simp [hlen], ?_⟩
        intro i e' he
        cases i with
        | zero =>
          simp only [List.get?] at he ⊢
          rw [Option.some_inj] at he
          subst he
          exact ⟨m, hm, rfl⟩
        | succ n =>
          simp only [List.get?] at he ⊢
          exact hpt n e' he

/-- C8: classifying a tuple of N type expressions yields exactly N shapes,
the i-th being the classification of the i-th element; classifying any
non-tuple expression yields exactly one shape. -/
theorem shape_list_counts :
    (∀ (elems : List RustType) (res : MaybeVariadicTypeList),
      MaybeVariadicTypeList.new (.tuple elems) = .ok res →
      res.found.length = elems.length ∧
      ∀ i e, elems.get? i = some e →
        ∃ m, MaybeVariadicType.new e = .ok m ∧ res.found.get? i = some m) ∧
    (∀ (t : RustType) (res : MaybeVariadicTypeList),
      t.isTuple = false → MaybeVariadicTypeList.new t = .ok res →
      res.found.length = 1) := by
  constructor
  · intro elems res h
    simp only [MaybeVariadicTypeList.new] at h
    cases hc : classifyElems elems with
    | error err => rw [hc] at h; simp at h
    | ok coll =>
      rw [hc] at h
      rw [Except.ok.injEq] at h
      subst h
      exact classifyElems_spec elems coll hc
  · intro t res ht h
    cases t with
    | tuple es => simp [RustType.isTuple] at ht
    | mCall p tok =>
      simp only [MaybeVariadicTypeList.new] at h
      cases hm : MaybeVariadicType.new (.mCall p tok) with
      | error err => rw [hm] at h; simp at h
      | ok m =>
        rw [hm] at h
        rw [Except.ok.injEq] at h
        subst h
        rfl
    | path s =>
      simp only [MaybeVariadicTypeList.new] at h
      cases hm : MaybeVariadicType.new (.path s) with
      | error err => rw [hm] at h; simp at h
      | ok m =>
        rw [hm] at h
        rw [Except.ok.injEq] at h
        subst h
        rfl

theorem shape_list_counts_witness :
    MaybeVariadicTypeList.new tupleExample = .ok tupleExampleRes ∧
    tupleExampleRes.found.length = 2 ∧
    MaybeVariadicTypeList.new (.path "i32") = .ok singleExampleRes ∧
    singleExampleRes.found.length = 1 :=
  ⟨rfl,
    (shape_list_counts.1 [.path "i32", .mCall ["variadic"] (some (.path "text"))]
      tupleExampleRes rfl).1,
    rfl,
    shape_list_counts.2 (.path "i32") singleExampleRes rfl rfl⟩

/-- C10: a type expression that is not a macro invocation always classifies
as a scalar, with no variadic inner type. -/
theorem non_call_classifies_scalar :
    ∀ t : RustType, t.isMCall = false →
      MaybeVariadicType.new t = .ok { ty := t, variadic_ty := none } := by
  intro t ht
  cases t with
  | mCall p tok => simp [RustType.isMCall] at ht
  | tuple es => rfl
  | path s => rfl

theorem non_call_classifies_scalar_witness :
    MaybeVariadicType.new (.path "i32") =
      .ok { ty := .path "i32", variadic_ty := none } :=
  non_call_classifies_scalar (.path "i32") rfl

/-! ## IntegerAvgState textual representation
(src/pgx-examples/aggregate/src/lib.rs) -/

/-- The decimal digit character for `d < 10`. -/
def digitChar (d : Nat) : Char := Char.ofNat (48 + d)

/-- The numeric value of a decimal digit character. -/
def digitVal? (c : Char) : Option Nat :=
  if 48 ≤ c.toNat ∧ c.toNat ≤ 57 then some (c.toNat - 48) else none

/-- Left-to-right decimal accumulation over a digit string. -/
def parseDigitsAux : List Char → Nat → Option Nat
  | [], acc => some acc
  | c :: rest, acc =>
    match digitVal? c with
    | some d => parseDigitsAux rest (acc * 10 + d)
    | none => none

/-- Parse a non-empty string of decimal digits. -/
def parseNat? (cs : List Char) : Option Nat :=
  match cs with
  | [] => none
  | _ => parseDigitsAux cs 0

/-- Decimal rendering of a natural number, most significant digit first;
the first argument is structural fuel, adequate whenever `n ≤ fuel`.
Renders nothing for `0` (handled by `natToChars`). -/
def natToCharsAux : Nat → Nat → List Char
  | _, 0 => []
  | 0, _ + 1 => []
  | fuel + 1, n + 1 =>
    natToCharsAux fuel ((n + 1) / 10) ++ [digitChar ((n + 1) % 10)]

/-- Decimal rendering of a natural number, as Rust `{}` formatting does. -/
def natToChars (n : Nat) : List Char :=
  if n = 0 then [digitChar 0] else natToCharsAux n n

/-- Rust `{}` formatting of an `i32`: minus sign for negatives, then the
decimal digits of the absolute value. -/
def intToChars (i : Int) : List Char :=
  if i < 0 then '-' :: natToChars i.natAbs else natToChars i.natAbs

/-- Rust `i32::from_str`: an optional sign followed by one or more decimal
digits, rejecting anything else and values outside the `i32` range. -/
def parseI32 (cs : List Char) : Option Int :=
  match cs with
  | [] => none
  | c :: rest =>
    if c = '-' then
      (parseNat? rest).bind fun v =>
        if (v : Int) ≤ 2 ^ 31 then some (-(v : Int)) else none
    else if c = '+' then
      (parseNat? rest).bind fun v =>
        if (v : Int) ≤ 2 ^ 31 - 1 then some (v : Int) else none
    else
      (parseNat? cs).bind fun v =>
        if (v : Int) ≤ 2 ^ 31 - 1 then some (v : Int) else none

/-- The `DEMOAVG` aggregate state: a running sum and a count (`i32` fields,
modeled as integers). -/
structure IntegerAvgState where
  sum : Int
  n : Int
deriving DecidableEq, Repr

/-- `PgVarlenaInOutFuncs::output` for `IntegerAvgState`:
`format!("{},{}", sum, n)`. -/
def IntegerAvgState.output (s : IntegerAvgState) : List Char :=
  intToChars s.sum ++ ',' :: intToChars s.n

/-- `PgVarlenaInOutFuncs::input` for `IntegerAvgState`: split the input on
every comma; the first chunk must parse as `sum` and the second as `n`;
further chunks are never requested. The `expect` panics of the source are
modeled as `none`. -/
def IntegerAvgState.input (cs : List Char) : Option IntegerAvgState :=
  match (splitOnChar ',' cs).get? 0, (splitOnChar ',' cs).get? 1 with
  | some c0, some c1 =>
    match parseI32 c0, parseI32 c1 with
    | some sum, some n => some { sum := sum, n := n }
    | _, _ => none
  | _, _ => none

/-! ### Lemmas about decimal rendering and parsing -/

theorem digitChar_toNat {d : Nat} (h : d < 10) : (digitChar d).toNat = 48 + d := by
  interval_cases d <;> decide

theorem digitVal_digitChar {d : Nat} (h : d < 10) : digitVal? (digitChar d) = some d := by
  unfold digitVal?
  rw [digitChar_toNat h, if_pos (by omega : 48 ≤ 48 + d ∧ 48 + d ≤ 57)]
  congr 1
  omega

theorem natToCharsAux_mem {fuel n : Nat} {c : Char} (h : c ∈ natToCharsAux fuel n) :
    ∃ d, d < 10 ∧ c = digitChar d := by
  induction fuel generalizing n with
  | zero => cases n <;> simp [natToCharsAux] at h
  | succ f ih =>
    cases n with
    | zero => simp [natToCharsAux] at h
    | succ m =>
      simp only [natToCharsAux, List.mem_append, List.mem_singleton] at h
      rcases h with h | h
      · exact ih h
      · exact ⟨(m + 1) % 10, Nat.mod_lt _ (by norm_num), h⟩

theorem natToChars_mem {n : Nat} {c : Char} (h : c ∈ natToChars n) :
    48 ≤ c.toNat ∧ c.toNat ≤ 57 := by
  unfold natToChars at h
  by_cases h0 : n = 0
  · rw [if_pos h0] at h
    simp only [List.mem_singleton] at h
    subst h
    rw [digitChar_toNat (by norm_num)]
    omega
  · rw [if_neg h0] at h
    obtain ⟨d, hd, rfl⟩ := natToCharsAux_mem h
    rw [digitChar_toNat hd]
    omega

theorem natToChars_ne_nil (n : Nat) : natToChars n ≠ [] := by
  unfold natToChars
  by_cases h0 : n = 0
  · rw [if_pos h0]; simp
  · rw [if_neg h0]
    cases n with
    | zero => exact absurd rfl h0
    | succ m => simp [natToCharsAux]

theorem parseDigitsAux_append (xs ys : List Char) (acc : Nat) :
    parseDigitsAux (xs ++ ys) acc =
      match parseDigitsAux xs acc with
      | some a => parseDigitsAux ys a
      | none => none := by
  induction xs generalizing acc with
  | nil => rfl
  | cons c xs ih =>
    simp only [List.cons_append, parseDigitsAux]
    cases digitVal? c with
    | none => rfl
    | some d => exact ih _

theorem parseDigitsAux_natToCharsAux {fuel n : Nat} (h : n ≤ fuel) (acc : Nat) :
    parseDigitsAux (natToCharsAux fuel n) acc =
      some (acc * 10 ^ (natToCharsAux fuel n).length + n) := by
  induction fuel generalizing n acc with
  | zero =>
    have h0 : n = 0 := Nat.le_zero.mp h
    subst h0
    simp [natToCharsAux, parseDigitsAux]
  | succ f ih =>
    cases n with
    | zero => simp [natToCharsAux, parseDigitsAux]
    | succ m =>
      have hdiv : (m + 1) / 10 ≤ f := by
        have := Nat.div_lt_self (Nat.succ_pos m) (by norm_num : 1 < 10)
        omega
      simp only [natToCharsAux]
      rw [parseDigitsAux_append, ih hdiv acc]
      simp only [parseDigitsAux,
        digitVal_digitChar (Nat.mod_lt _ (by norm_num : 0 < 10))]
      rw [Option.some_inj]
      rw [List.length_append, List.length_cons, List.length_nil, pow_succ, ← mul_assoc]
      generalize acc * 10 ^ (natToCharsAux f ((m + 1) / 10)).length = X
      omega

theorem parseNat_natToChars (n : Nat) : parseNat? (natToChars n) = some n := by
  by_cases h0 : n = 0
  · subst h0; rfl
  · unfold natToChars
    rw [if_neg h0]
    cases hc : natToCharsAux n n with
    | nil =>
      exfalso
      have := natToChars_ne_nil n
      unfold natToChars at this
      rw [if_neg h0] at this
      exact this hc
    | cons c cs =>
      show parseDigitsAux (c :: cs) 0 = some n
      rw [← hc, parseDigitsAux_natToCharsAux (le_refl n) 0]
      simp

theorem comma_not_mem_natToChars (n : Nat) : ',' ∉ natToChars n := by
  intro h
  have hm := natToChars_mem h
  have hc : (',').toNat = 44 := rfl
  omega

theorem comma_not_mem_intToChars (i : Int) : ',' ∉ intToChars i := by
  unfold intToChars
  by_cases hi : i < 0
  · rw [if_pos hi]
    intro h
    rcases List.mem_cons.mp h with h | h
    · exact absurd h (by decide)
    · exact comma_not_mem_natToChars _ h
  · rw [if_neg hi]
    exact comma_not_mem_natToChars _

theorem parseI32_intToChars {i : Int} (hlo : -(2 ^ 31) ≤ i) (hhi : i ≤ 2 ^ 31 - 1) :
    parseI32 (intToChars i) = some i := by
  by_cases hi : i < 0
  · unfold intToChars
    rw [if_pos hi]
    show parseI32 ('-' :: natToChars i.natAbs) = some i
    unfold parseI32
    dsimp only
    rw [if_pos rfl, parseNat_natToChars]
    simp only [Option.some_bind]
    rw [if_pos (by omega : (i.natAbs : Int) ≤ 2 ^ 31)]
    rw [Option.some_inj]
    omega
  · unfold intToChars
    rw [if_neg hi]
    cases hc : natToChars i.natAbs with
    | nil => exact absurd hc (natToChars_ne_nil _)
    | cons c cs =>
      have hcm : 48 ≤ c.toNat ∧ c.toNat ≤ 57 :=
        natToChars_mem (hc ▸ List.mem_cons_self c cs)
      have hminus : ¬ c = '-' := by
        intro he; rw [he] at hcm; exact absurd hcm (by decide)
      have hplus : ¬ c = '+' := by
        intro he; rw [he] at hcm; exact absurd hcm (by decide)
      show parseI32 (c :: cs) = some i
      unfold parseI32
      dsimp only
      rw [if_neg hminus, if_neg hplus, ← hc, parseNat_natToChars]
      simp only [Option.some_bind]
      rw [if_pos (by omega : (i.natAbs : Int) ≤ 2 ^ 31 - 1)]
      rw [Option.some_inj]
      omega

/-! ### Claims about the aggregate-state textual representation -/

/-- C5 (counterexample): an input with more than one comma does NOT fail:
`6,3,9` parses successfully, taking the first two comma-separated chunks
and ignoring the rest. -/
theorem input_extra_comma_parses :
    IntegerAvgState.input "6,3,9".toList = some { sum := 6, n := 3 } := rfl

/-- C5 (amended): the parser splits the input on every comma and reads only
the first two chunks: whenever the text before the first comma and the text
between the first and second comma are comma-free valid integers, parsing
succeeds with those two values, ignoring everything after the second
comma. Parsing still fails when fewer than two chunks exist or when either
of the first two chunks is not a valid integer. -/
theorem input_first_two_chunks :
    ∀ (a b rest : List Char) (x y : Int), ',' ∉ a → ',' ∉ b →
      parseI32 a = some x → parseI32 b = some y →
      IntegerAvgState.input (a ++ ',' :: (b ++ ',' :: rest)) =
        some { sum := x, n := y } := by
  intro a b rest x y ha hb hx hy
  unfold IntegerAvgState.input
  rw [splitOnChar_append_sep _ ha, splitOnChar_append_sep _ hb]
  simp only [List.get?]
  rw [hx, hy]

theorem input_first_two_chunks_witness :
    IntegerAvgState.input ("6".toList ++ ',' :: ("3".toList ++ ',' :: "9".toList)) =
      some { sum := 6, n := 3 } :=
  input_first_two_chunks "6".toList "3".toList "9".toList 6 3
    (by decide) (by decide) rfl rfl

/-- C9: serializing any in-range state `{sum, n}` to its comma-separated
decimal text and parsing that text back yields the same state — the output
followed by the input is the identity. -/
theorem avg_state_roundtrip :
    ∀ s : IntegerAvgState,
      -(2 ^ 31) ≤ s.sum → s.sum ≤ 2 ^ 31 - 1 →
      -(2 ^ 31) ≤ s.n → s.n ≤ 2 ^ 31 - 1 →
      IntegerAvgState.input (IntegerAvgState.output s) = some s := by
  intro s h1 h2 h3 h4
  unfold IntegerAvgState.output IntegerAvgState.input
  rw [splitOnChar_append_sep _ (comma_not_mem_intToChars s.sum),
      splitOnChar_of_not_mem (comma_not_mem_intToChars s.n)]
  simp only [List.get?]
  rw [parseI32_intToChars h1 h2, parseI32_intToChars h3 h4]

theorem avg_state_roundtrip_witness :
    IntegerAvgState.output { sum := 6, n := 3 } = "6,3".toList ∧
    IntegerAvgState.input "6,3".toList = some { sum := 6, n := 3 } ∧
    IntegerAvgState.input (IntegerAvgState.output { sum := 6, n := 3 }) =
      some { sum := 6, n := 3 } :=
  ⟨rfl, rfl,
    avg_state_roundtrip { sum := 6, n := 3 }
      (by decide) (by decide) (by decide) (by decide)⟩
